import Mathlib

/-!
Verification of the DLA-Future core against its specification.

The index arithmetic of `include/dlaf/matrix/util_distribution.h` is embedded
as functions on `Int` (the C++ `SizeType` is a signed 64-bit integer; `int`
parameters such as ranks and grid sizes are likewise embedded as `Int`).
C++ division and remainder truncate towards zero; on the domains enforced by
the preconditions of the functions every operand of `/` and `%` is non-negative,
where truncating division coincides with the Euclidean `Int.ediv` /
`Int.emod`, so the embedding uses `/` and `%` on `Int` directly.

The `DLAF_ASSERT_HEAVY` precondition checks are embedded separately as
`Option`-valued variants (`none` = assertion failure in a debug build).

The MPI bridge (`include/dlaf/sender/transform_mpi.h`) and the broadcast
kernels (`src/communication/kernels/broadcast.cpp`) are embedded as explicit
event traces over abstract argument kinds and tile contents.
-/

namespace dlaf

/-- Embeds `tileFromElement` (util_distribution.h): `element / block_size`. -/
def tileFromElement (element block_size : Int) : Int :=
  element / block_size

/-- Embeds `tileElementFromElement` (util_distribution.h): `element % block_size`. -/
def tileElementFromElement (element block_size : Int) : Int :=
  element % block_size

/-- Embeds `elementFromTileAndTileElement` (util_distribution.h):
`tile * block_size + tile_element`. -/
def elementFromTileAndTileElement (tile tile_element block_size : Int) : Int :=
  tile * block_size + tile_element

/-- Embeds `rankGlobalTile` (util_distribution.h):
`global_block = global_tile / tiles_per_block; (global_block + src_rank) % grid_size`. -/
def rankGlobalTile (global_tile tiles_per_block grid_size src_rank : Int) : Int :=
  (global_tile / tiles_per_block + src_rank) % grid_size

/-- Embeds `localTileFromGlobalTile` (util_distribution.h): the local index when
`rank` owns the tile, `-1` otherwise. -/
def localTileFromGlobalTile (global_tile tiles_per_block grid_size rank src_rank : Int) : Int :=
  if rank = rankGlobalTile global_tile tiles_per_block grid_size src_rank then
    global_tile / tiles_per_block / grid_size * tiles_per_block +
      global_tile % tiles_per_block
  else
    -1

/-- Embeds `nextLocalTileFromGlobalTile` (util_distribution.h); the local
variables of the source, `rank_to_src = (rank + grid_size - src_rank) % grid_size`,
`global_block = global_tile / tiles_per_block`, `owner_to_src = global_block %
grid_size` and `local_block = global_block / grid_size` are inlined. -/
def nextLocalTileFromGlobalTile (global_tile tiles_per_block grid_size rank src_rank : Int) :
    Int :=
  if (rank + grid_size - src_rank) % grid_size =
      global_tile / tiles_per_block % grid_size then
    global_tile / tiles_per_block / grid_size * tiles_per_block +
      global_tile % tiles_per_block
  else if (rank + grid_size - src_rank) % grid_size <
      global_tile / tiles_per_block % grid_size then
    (global_tile / tiles_per_block / grid_size + 1) * tiles_per_block
  else
    global_tile / tiles_per_block / grid_size * tiles_per_block

/-- Embeds `globalTileFromLocalTile` (util_distribution.h); the local
variables of the source, `rank_to_src` and `local_block` are inlined. -/
def globalTileFromLocalTile (local_tile tiles_per_block grid_size rank src_rank : Int) : Int :=
  (grid_size * (local_tile / tiles_per_block) +
      (rank + grid_size - src_rank) % grid_size) * tiles_per_block +
    local_tile % tiles_per_block

/-- Embeds a `DLAF_ASSERT_HEAVY(cond, ...)` statement: in a debug build the
computation continues only when `cond` holds, otherwise it fails (`none`). -/
def dlafAssertHeavy {α : Type} (cond : Prop) [Decidable cond] (k : Option α) : Option α :=
  if cond then k else none

/-- Embeds `tileFromElement` with its `DLAF_ASSERT_HEAVY` checks, in source order. -/
def tileFromElement_checked (element block_size : Int) : Option Int :=
  dlafAssertHeavy (0 ≤ element) <|
  dlafAssertHeavy (0 < block_size) <|
  some (tileFromElement element block_size)

/-- Embeds `tileElementFromElement` with its `DLAF_ASSERT_HEAVY` checks. -/
def tileElementFromElement_checked (element block_size : Int) : Option Int :=
  dlafAssertHeavy (0 ≤ element) <|
  dlafAssertHeavy (0 < block_size) <|
  some (tileElementFromElement element block_size)

/-- Embeds `elementFromTileAndTileElement` with its `DLAF_ASSERT_HEAVY` checks. -/
def elementFromTileAndTileElement_checked (tile tile_element block_size : Int) : Option Int :=
  dlafAssertHeavy (0 ≤ tile) <|
  dlafAssertHeavy (0 ≤ tile_element ∧ tile_element < block_size) <|
  dlafAssertHeavy (0 < block_size) <|
  some (elementFromTileAndTileElement tile tile_element block_size)

/-- Embeds `rankGlobalTile` with its `DLAF_ASSERT_HEAVY` checks. -/
def rankGlobalTile_checked (global_tile tiles_per_block grid_size src_rank : Int) :
    Option Int :=
  dlafAssertHeavy (0 ≤ global_tile) <|
  dlafAssertHeavy (0 < tiles_per_block) <|
  dlafAssertHeavy (0 < grid_size) <|
  dlafAssertHeavy (0 ≤ src_rank ∧ src_rank < grid_size) <|
  some (rankGlobalTile global_tile tiles_per_block grid_size src_rank)

/-- Embeds `localTileFromGlobalTile` with its `DLAF_ASSERT_HEAVY` checks. -/
def localTileFromGlobalTile_checked (global_tile tiles_per_block grid_size rank src_rank :
    Int) : Option Int :=
  dlafAssertHeavy (0 ≤ global_tile) <|
  dlafAssertHeavy (0 < tiles_per_block) <|
  dlafAssertHeavy (0 < grid_size) <|
  dlafAssertHeavy (0 ≤ rank ∧ rank < grid_size) <|
  dlafAssertHeavy (0 ≤ src_rank ∧ src_rank < grid_size) <|
  some (localTileFromGlobalTile global_tile tiles_per_block grid_size rank src_rank)

/-- Embeds `nextLocalTileFromGlobalTile` with its `DLAF_ASSERT_HEAVY` checks. -/
def nextLocalTileFromGlobalTile_checked (global_tile tiles_per_block grid_size rank src_rank :
    Int) : Option Int :=
  dlafAssertHeavy (0 ≤ global_tile) <|
  dlafAssertHeavy (0 < tiles_per_block) <|
  dlafAssertHeavy (0 < grid_size) <|
  dlafAssertHeavy (0 ≤ rank ∧ rank < grid_size) <|
  dlafAssertHeavy (0 ≤ src_rank ∧ src_rank < grid_size) <|
  some (nextLocalTileFromGlobalTile global_tile tiles_per_block grid_size rank src_rank)

/-- Embeds `globalTileFromLocalTile` with its `DLAF_ASSERT_HEAVY` checks. -/
def globalTileFromLocalTile_checked (local_tile tiles_per_block grid_size rank src_rank :
    Int) : Option Int :=
  dlafAssertHeavy (0 ≤ local_tile) <|
  dlafAssertHeavy (0 < tiles_per_block) <|
  dlafAssertHeavy (0 < grid_size) <|
  dlafAssertHeavy (0 ≤ rank ∧ rank < grid_size) <|
  dlafAssertHeavy (0 ≤ src_rank ∧ src_rank < grid_size) <|
  some (globalTileFromLocalTile local_tile tiles_per_block grid_size rank src_rank)

/-! Helper lemmas about Euclidean division used throughout. -/

/-- Reducing the left summand modulo `n` does not change a sum modulo `n`. -/
lemma emod_absorb_left (x y n : Int) : (x % n + y) % n = (x + y) % n := by
  rw [Int.add_emod, Int.emod_emod_of_dvd x dvd_rfl, ← Int.add_emod]

/-- Adding `n` to the dividend does not change the remainder modulo `n`. -/
lemma emod_add_self (x n : Int) : (x + n) % n = x % n := by
  have h : x + n = x + 1 * n := by ring
  rw [h, Int.add_mul_emod_self]

/-- Quotient of `q * t + r` by `t` is `q` when `0 ≤ r < t`. -/
lemma ediv_mul_add (q r t : Int) (ht : 0 < t) (hr0 : 0 ≤ r) (hrt : r < t) :
    (q * t + r) / t = q := by
  rw [add_comm, Int.add_mul_ediv_right r q (ne_of_gt ht), Int.ediv_eq_zero_of_lt hr0 hrt,
    zero_add]

/-- Remainder of `q * t + r` by `t` is `r` when `0 ≤ r < t`. -/
lemma emod_mul_add (q r t : Int) (hr0 : 0 ≤ r) (hrt : r < t) :
    (q * t + r) % t = r := by
  rw [add_comm, Int.add_mul_emod_self, Int.emod_eq_of_lt hr0 hrt]

/-- Renumbering so that `src_rank` becomes rank `0`: `(rank + n - src) % n = b % n`
holds exactly when `rank` is the rank `(b + src) % n`. -/
lemma rank_to_src_eq_iff (b rank src n : Int) (hn : 0 < n)
    (hrank : 0 ≤ rank ∧ rank < n) (hsrc : 0 ≤ src ∧ src < n) :
    (rank + n - src) % n = b % n ↔ (b + src) % n = rank := by
  constructor
  · intro h
    have h1 : (b + src) % n = (b % n + src) % n := (emod_absorb_left b src n).symm
    rw [h1, ← h]
    rw [emod_absorb_left (rank + n - src) src n]
    have h3 : rank + n - src + src = rank + n := by ring
    rw [h3, emod_add_self, Int.emod_eq_of_lt hrank.1 hrank.2]
  · intro h
    rw [← h]
    have h4 : (b + src) % n + n - src = (b + src) % n + (n - src) := by ring
    have h3 : b + src + (n - src) = b + n := by ring
    rw [h4, emod_absorb_left (b + src) (n - src) n, h3, emod_add_self]

/-- Renumbering back: adding `src` to a src-relative rank offset recovers the rank. -/
lemma rts_add_src (rank s n : Int) (h0 : 0 ≤ rank) (h1 : rank < n) :
    ((rank + n - s) % n + s) % n = rank := by
  rw [emod_absorb_left (rank + n - s) s n]
  have h : rank + n - s + s = rank + n := by ring
  rw [h, emod_add_self, Int.emod_eq_of_lt h0 h1]

/-- Unfolding `globalTileFromLocalTile` to its arithmetic form. -/
lemma globalTileFromLocalTile_eq (l t n rank s : Int) :
    globalTileFromLocalTile l t n rank s =
      (n * (l / t) + (rank + n - s) % n) * t + l % t := rfl

/-- On every non-negative local tile index, `globalTileFromLocalTile` produces a
global tile owned by `rank`. -/
lemma owner_globalTileFromLocalTile (l t n rank s : Int) (ht : 0 < t) (hn : 0 < n)
    (h0 : 0 ≤ rank) (h1 : rank < n) :
    rankGlobalTile (globalTileFromLocalTile l t n rank s) t n s = rank := by
  have hrts0 : 0 ≤ (rank + n - s) % n := Int.emod_nonneg _ (ne_of_gt hn)
  have hrtsn : (rank + n - s) % n < n := Int.emod_lt_of_pos _ hn
  have hl0 : 0 ≤ l % t := Int.emod_nonneg _ (ne_of_gt ht)
  have hlt : l % t < t := Int.emod_lt_of_pos _ ht
  rw [globalTileFromLocalTile_eq]
  unfold rankGlobalTile
  rw [ediv_mul_add _ _ _ ht hl0 hlt]
  have h2 : n * (l / t) + (rank + n - s) % n + s =
      (rank + n - s) % n + s + n * (l / t) := by ring
  rw [h2, Int.add_mul_emod_self_left ((rank + n - s) % n + s) n (l / t),
    rts_add_src rank s n h0 h1]

/-- The src-relative offset of the owner of `g` equals the src-relative offset of
`rank` exactly when `rank` owns `g`. -/
lemma rank_to_src_eq_owner_iff (g t n rank s : Int) (hn : 0 < n)
    (hrank : 0 ≤ rank ∧ rank < n) (hs : 0 ≤ s ∧ s < n) :
    (rank + n - s) % n = g / t % n ↔ rank = rankGlobalTile g t n s := by
  unfold rankGlobalTile
  rw [rank_to_src_eq_iff (g / t) rank s n hn hrank hs]
  exact eq_comm

/-- Mapping a block-start local index back to its global tile index. -/
lemma globalTileFromLocalTile_block (LB t n rank s : Int) (ht : 0 < t) :
    globalTileFromLocalTile (LB * t) t n rank s =
      (n * LB + (rank + n - s) % n) * t := by
  unfold globalTileFromLocalTile
  rw [Int.mul_ediv_cancel LB (ne_of_gt ht), Int.mul_emod_left LB t, add_zero]

/-- Two integers congruent modulo `n` that are less than `n` apart are ordered. -/
lemma le_of_emod_eq_of_sub_lt (B hb n : Int) (hn : 0 < n) (hmod : hb % n = B % n)
    (hlt : B - n < hb) : B ≤ hb := by
  have hzero : (B - hb) % n = 0 := by
    rw [Int.sub_emod, hmod, sub_self, Int.zero_emod]
  have hdvd : n ∣ B - hb := Int.dvd_of_emod_eq_zero hzero
  by_contra hcon
  push_neg at hcon
  have hpos : 0 < B - hb := by linarith
  have hge : n ≤ B - hb := Int.le_of_dvd hpos hdvd
  linarith

/-- An element strictly below block `B` is at most the first element of block `B`. -/
lemma le_block_start (g B t : Int) (ht : 0 < t) (hlt : g / t < B) : g ≤ B * t := by
  have h1 : g < (g / t + 1) * t := Int.lt_ediv_add_one_mul_self g ht
  have h2 : g / t + 1 ≤ B := hlt
  have h3 : (g / t + 1) * t ≤ B * t := mul_le_mul_of_nonneg_right h2 (le_of_lt ht)
  linarith

/-- The first element of block `B` is at most any element in a block at or after `B`. -/
lemma block_start_le (h B t : Int) (ht : 0 < t) (hle : B ≤ h / t) : B * t ≤ h := by
  have h1 : B * t ≤ h / t * t := mul_le_mul_of_nonneg_right hle (le_of_lt ht)
  have h2 : h / t * t ≤ h := Int.ediv_mul_le h (ne_of_gt ht)
  linarith

/-- C4: for every element index `e ≥ 0` and block size `b > 0`, splitting an
element index into tile index and in-tile offset and recombining is the
identity: `elementFromTileAndTileElement (tileFromElement e b)
(tileElementFromElement e b) b = e`. -/
theorem tile_element_roundtrip (e b : Int) (he : 0 ≤ e) (hb : 0 < b) :
    elementFromTileAndTileElement (tileFromElement e b) (tileElementFromElement e b) b = e ∧
    tileFromElement e b = e / b ∧ tileElementFromElement e b = e % b := by
  refine ⟨?_, rfl, rfl⟩
  unfold elementFromTileAndTileElement tileFromElement tileElementFromElement
  rw [mul_comm]
  exact Int.ediv_add_emod e b

/-- Witness for `tile_element_roundtrip` at `e = 124`, `b = 10`. -/
theorem tile_element_roundtrip_witness :
    elementFromTileAndTileElement (tileFromElement 124 10) (tileElementFromElement 124 10) 10 =
      124 ∧
    tileFromElement 124 10 = 124 / 10 ∧ tileElementFromElement 124 10 = 124 % 10 :=
  tile_element_roundtrip 124 10 (by decide) (by decide)

/-- C5: `rankGlobalTile` implements the block-cyclic ownership rule
`(global_tile / tiles_per_block + src_rank) % grid_size`; the result is a valid
rank in `[0, grid_size)`; and all `tiles_per_block` consecutive tiles of one
block are assigned to the same rank. -/
theorem rankGlobalTile_block_cyclic (g t n s : Int) (hg : 0 ≤ g) (ht : 0 < t) (hn : 0 < n)
    (hs : 0 ≤ s ∧ s < n) :
    rankGlobalTile g t n s = (g / t + s) % n ∧
    (0 ≤ rankGlobalTile g t n s ∧ rankGlobalTile g t n s < n) ∧
    (∀ k, 0 ≤ k → k < t → rankGlobalTile (g / t * t + k) t n s = rankGlobalTile g t n s) := by
  refine ⟨rfl, ⟨Int.emod_nonneg _ (ne_of_gt hn), Int.emod_lt_of_pos _ hn⟩, ?_⟩
  intro k hk0 hkt
  unfold rankGlobalTile
  rw [ediv_mul_add (g / t) k t ht hk0 hkt]

/-- Witness for `rankGlobalTile_block_cyclic` at `g = 12`, `t = 1`, `n = 5`, `s = 0`. -/
theorem rankGlobalTile_block_cyclic_witness :
    rankGlobalTile 12 1 5 0 = (12 / 1 + 0) % 5 ∧
    (0 ≤ rankGlobalTile 12 1 5 0 ∧ rankGlobalTile 12 1 5 0 < 5) ∧
    (∀ k, 0 ≤ k → k < 1 → rankGlobalTile (12 / 1 * 1 + k) 1 5 0 = rankGlobalTile 12 1 5 0) :=
  rankGlobalTile_block_cyclic 12 1 5 0 (by decide) (by decide) (by decide) (by decide)

/-- C7: the concrete distribution example `tile_size = 10`, `tiles_per_block = 1`,
`grid_size = 5`, `src_rank = 0`, `global_element = 124`: global tile `12`,
tile element `4`, owning rank `2`; for rank `1` the tile is not local (`-1`)
and the next local tile at or after it is `3`. -/
theorem example_distribution_case :
    tileFromElement 124 10 = 12 ∧
    tileElementFromElement 124 10 = 4 ∧
    rankGlobalTile 12 1 5 0 = 2 ∧
    localTileFromGlobalTile 12 1 5 1 0 = -1 ∧
    nextLocalTileFromGlobalTile 12 1 5 1 0 = 3 := by
  refine ⟨by decide, by decide, by decide, ?_, by decide⟩
  unfold localTileFromGlobalTile
  decide

/-- C6: under the documented preconditions, `localTileFromGlobalTile` returns the
non-negative local index `(g / t / n) * t + g % t` when `rank` owns the tile,
and the sentinel `-1` in every other case. -/
theorem localTileFromGlobalTile_spec (g t n rank s : Int) (hg : 0 ≤ g) (ht : 0 < t)
    (hn : 0 < n) (hrank : 0 ≤ rank ∧ rank < n) (hs : 0 ≤ s ∧ s < n) :
    (rank = rankGlobalTile g t n s →
      localTileFromGlobalTile g t n rank s = g / t / n * t + g % t ∧
      0 ≤ localTileFromGlobalTile g t n rank s) ∧
    (rank ≠ rankGlobalTile g t n s → localTileFromGlobalTile g t n rank s = -1) := by
  constructor
  · intro h
    have heq : localTileFromGlobalTile g t n rank s = g / t / n * t + g % t := by
      unfold localTileFromGlobalTile
      rw [if_pos h]
    refine ⟨heq, ?_⟩
    rw [heq]
    have h1 : 0 ≤ g / t / n :=
      Int.ediv_nonneg (Int.ediv_nonneg hg (le_of_lt ht)) (le_of_lt hn)
    have h2 : 0 ≤ g % t := Int.emod_nonneg _ (ne_of_gt ht)
    have h3 : 0 ≤ g / t / n * t := mul_nonneg h1 (le_of_lt ht)
    linarith
  · intro h
    unfold localTileFromGlobalTile
    rw [if_neg h]

/-- Witness for `localTileFromGlobalTile_spec` at `g = 12`, `t = 1`, `n = 5`,
`rank = 2`, `s = 0` (the owning rank of the example case). -/
theorem localTileFromGlobalTile_spec_witness :
    (2 = rankGlobalTile 12 1 5 0 →
      localTileFromGlobalTile 12 1 5 2 0 = 12 / 1 / 5 * 1 + 12 % 1 ∧
      0 ≤ localTileFromGlobalTile 12 1 5 2 0) ∧
    (2 ≠ rankGlobalTile 12 1 5 0 → localTileFromGlobalTile 12 1 5 2 0 = -1) :=
  localTileFromGlobalTile_spec 12 1 5 2 0 (by decide) (by decide) (by decide)
    ⟨by decide, by decide⟩ ⟨by decide, by decide⟩

/-- C2: for every valid input exactly one rank in `[0, grid_size)` owns a global
tile; for the owning rank, `globalTileFromLocalTile` inverts
`localTileFromGlobalTile`; and for every non-negative local tile index,
`localTileFromGlobalTile` inverts `globalTileFromLocalTile`. -/
theorem owner_unique_and_roundtrip (g t n s : Int) (hg : 0 ≤ g) (ht : 0 < t) (hn : 0 < n)
    (hs : 0 ≤ s ∧ s < n) :
    (∃! r, (0 ≤ r ∧ r < n) ∧ rankGlobalTile g t n s = r) ∧
    (∀ rank, 0 ≤ rank → rank < n → rank = rankGlobalTile g t n s →
      globalTileFromLocalTile (localTileFromGlobalTile g t n rank s) t n rank s = g) ∧
    (∀ l rank, 0 ≤ l → 0 ≤ rank → rank < n →
      localTileFromGlobalTile (globalTileFromLocalTile l t n rank s) t n rank s = l) := by
  refine ⟨?_, ?_, ?_⟩
  · refine ⟨rankGlobalTile g t n s,
      ⟨⟨Int.emod_nonneg _ (ne_of_gt hn), Int.emod_lt_of_pos _ hn⟩, rfl⟩, ?_⟩
    intro r hr
    exact hr.2.symm
  · intro rank hrank0 hrankn h
    have hr0 : 0 ≤ g % t := Int.emod_nonneg _ (ne_of_gt ht)
    have hrt : g % t < t := Int.emod_lt_of_pos _ ht
    have hloc : localTileFromGlobalTile g t n rank s = g / t / n * t + g % t := by
      unfold localTileFromGlobalTile
      rw [if_pos h]
    have hrts : (rank + n - s) % n = g / t % n :=
      (rank_to_src_eq_owner_iff g t n rank s hn ⟨hrank0, hrankn⟩ hs).2 h
    rw [hloc, globalTileFromLocalTile_eq,
      ediv_mul_add (g / t / n) (g % t) t ht hr0 hrt,
      emod_mul_add (g / t / n) (g % t) t hr0 hrt, hrts]
    have hgb : n * (g / t / n) + g / t % n = g / t := Int.ediv_add_emod (g / t) n
    rw [hgb]
    have hsplit : t * (g / t) + g % t = g := Int.ediv_add_emod g t
    linarith [hsplit]
  · intro l rank hl0 hrank0 hrankn
    have howner : rank = rankGlobalTile (globalTileFromLocalTile l t n rank s) t n s :=
      (owner_globalTileFromLocalTile l t n rank s ht hn hrank0 hrankn).symm
    have hrts0 : 0 ≤ (rank + n - s) % n := Int.emod_nonneg _ (ne_of_gt hn)
    have hrtsn : (rank + n - s) % n < n := Int.emod_lt_of_pos _ hn
    have hr0 : 0 ≤ l % t := Int.emod_nonneg _ (ne_of_gt ht)
    have hrt : l % t < t := Int.emod_lt_of_pos _ ht
    unfold localTileFromGlobalTile
    rw [if_pos howner, globalTileFromLocalTile_eq,
      ediv_mul_add (n * (l / t) + (rank + n - s) % n) (l % t) t ht hr0 hrt,
      emod_mul_add (n * (l / t) + (rank + n - s) % n) (l % t) t hr0 hrt]
    have hcomm : n * (l / t) + (rank + n - s) % n =
        l / t * n + (rank + n - s) % n := by ring
    rw [hcomm, ediv_mul_add (l / t) ((rank + n - s) % n) n hn hrts0 hrtsn]
    have hsplit : t * (l / t) + l % t = l := Int.ediv_add_emod l t
    linarith [hsplit]

/-- Witness for `owner_unique_and_roundtrip` at `g = 12`, `t = 1`, `n = 5`, `s = 0`. -/
theorem owner_unique_and_roundtrip_witness :
    (∃! r, (0 ≤ r ∧ r < 5) ∧ rankGlobalTile 12 1 5 0 = r) ∧
    (∀ rank, 0 ≤ rank → rank < 5 → rank = rankGlobalTile 12 1 5 0 →
      globalTileFromLocalTile (localTileFromGlobalTile 12 1 5 rank 0) 1 5 rank 0 = 12) ∧
    (∀ l rank, 0 ≤ l → 0 ≤ rank → rank < 5 →
      localTileFromGlobalTile (globalTileFromLocalTile l 1 5 rank 0) 1 5 rank 0 = l) :=
  owner_unique_and_roundtrip 12 1 5 0 (by decide) (by decide) (by decide) ⟨by decide, by decide⟩

/-- C1: under the documented preconditions, `nextLocalTileFromGlobalTile` equals
`localTileFromGlobalTile` when `rank` owns `global_tile`; when `rank` does not
own it, mapping the returned local index back through `globalTileFromLocalTile`
yields the smallest global tile index that is at least `global_tile` and is
owned by `rank`. -/
theorem nextLocalTileFromGlobalTile_spec (g t n rank s : Int) (hg : 0 ≤ g) (ht : 0 < t)
    (hn : 0 < n) (hrank : 0 ≤ rank ∧ rank < n) (hs : 0 ≤ s ∧ s < n) :
    (rank = rankGlobalTile g t n s →
      nextLocalTileFromGlobalTile g t n rank s = localTileFromGlobalTile g t n rank s) ∧
    (rank ≠ rankGlobalTile g t n s →
      g ≤ globalTileFromLocalTile (nextLocalTileFromGlobalTile g t n rank s) t n rank s ∧
      rankGlobalTile (globalTileFromLocalTile (nextLocalTileFromGlobalTile g t n rank s)
        t n rank s) t n s = rank ∧
      ∀ h, g ≤ h → rankGlobalTile h t n s = rank →
        globalTileFromLocalTile (nextLocalTileFromGlobalTile g t n rank s) t n rank s ≤ h) := by
  constructor
  · intro h
    have hrts : (rank + n - s) % n = g / t % n :=
      (rank_to_src_eq_owner_iff g t n rank s hn hrank hs).2 h
    unfold nextLocalTileFromGlobalTile localTileFromGlobalTile
    rw [if_pos hrts, if_pos h]
  · intro hne
    have hrts_ne : (rank + n - s) % n ≠ g / t % n := fun hc =>
      hne ((rank_to_src_eq_owner_iff g t n rank s hn hrank hs).1 hc)
    have hrts0 : 0 ≤ (rank + n - s) % n := Int.emod_nonneg _ (ne_of_gt hn)
    have hrtsn : (rank + n - s) % n < n := Int.emod_lt_of_pos _ hn
    have hkey : ∃ LB, nextLocalTileFromGlobalTile g t n rank s = LB * t ∧
        g / t < n * LB + (rank + n - s) % n ∧
        n * LB + (rank + n - s) % n - n ≤ g / t := by
      have hsplit : n * (g / t / n) + g / t % n = g / t := Int.ediv_add_emod (g / t) n
      have hots0 : 0 ≤ g / t % n := Int.emod_nonneg _ (ne_of_gt hn)
      have hotsn : g / t % n < n := Int.emod_lt_of_pos _ hn
      rcases lt_or_gt_of_ne hrts_ne with hlt | hgt
      · refine ⟨g / t / n + 1, ?_, ?_, ?_⟩
        · unfold nextLocalTileFromGlobalTile
          rw [if_neg hrts_ne, if_pos hlt]
        · have hexp : n * (g / t / n + 1) = n * (g / t / n) + n := by ring
          linarith
        · have hexp : n * (g / t / n + 1) = n * (g / t / n) + n := by ring
          linarith
      · refine ⟨g / t / n, ?_, ?_, ?_⟩
        · unfold nextLocalTileFromGlobalTile
          rw [if_neg hrts_ne, if_neg (not_lt_of_gt hgt)]
        · linarith
        · linarith
    obtain ⟨LB, hNL, hgbB, hBsub⟩ := hkey
    have hgeq : globalTileFromLocalTile (nextLocalTileFromGlobalTile g t n rank s) t n rank s =
        (n * LB + (rank + n - s) % n) * t := by
      rw [hNL, globalTileFromLocalTile_block LB t n rank s ht]
    have hBmod : (n * LB + (rank + n - s) % n) % n = (rank + n - s) % n := by
      have hcomm : n * LB + (rank + n - s) % n = (rank + n - s) % n + n * LB := by ring
      rw [hcomm, Int.add_mul_emod_self_left ((rank + n - s) % n) n LB,
        Int.emod_emod_of_dvd _ dvd_rfl]
    refine ⟨?_, owner_globalTileFromLocalTile _ t n rank s ht hn hrank.1 hrank.2, ?_⟩
    · rw [hgeq]
      exact le_block_start g (n * LB + (rank + n - s) % n) t ht hgbB
    · intro h hgh howner
      have hhb : (rank + n - s) % n = h / t % n :=
        (rank_to_src_eq_owner_iff h t n rank s hn hrank hs).2 howner.symm
      have hle_div : g / t ≤ h / t := Int.ediv_le_ediv ht hgh
      have hne_div : g / t ≠ h / t := by
        intro hc
        exact hrts_ne (by rw [hc]; exact hhb)
      have hlt_div : g / t < h / t := lt_of_le_of_ne hle_div hne_div
      have hmod2 : h / t % n = (n * LB + (rank + n - s) % n) % n := by
        rw [hBmod, ← hhb]
      have hsub : n * LB + (rank + n - s) % n - n < h / t := by linarith
      have hBle : n * LB + (rank + n - s) % n ≤ h / t :=
        le_of_emod_eq_of_sub_lt _ _ n hn hmod2 hsub
      rw [hgeq]
      exact block_start_le h _ t ht hBle

/-- Witness for `nextLocalTileFromGlobalTile_spec` at `g = 12`, `t = 1`, `n = 5`,
`rank = 1`, `s = 0` (a non-owning rank of the example case). -/
theorem nextLocalTileFromGlobalTile_spec_witness :
    (1 = rankGlobalTile 12 1 5 0 →
      nextLocalTileFromGlobalTile 12 1 5 1 0 = localTileFromGlobalTile 12 1 5 1 0) ∧
    (1 ≠ rankGlobalTile 12 1 5 0 →
      12 ≤ globalTileFromLocalTile (nextLocalTileFromGlobalTile 12 1 5 1 0) 1 5 1 0 ∧
      rankGlobalTile (globalTileFromLocalTile (nextLocalTileFromGlobalTile 12 1 5 1 0)
        1 5 1 0) 1 5 0 = 1 ∧
      ∀ h, 12 ≤ h → rankGlobalTile h 1 5 0 = 1 →
        globalTileFromLocalTile (nextLocalTileFromGlobalTile 12 1 5 1 0) 1 5 1 0 ≤ h) :=
  nextLocalTileFromGlobalTile_spec 12 1 5 1 0 (by decide) (by decide) (by decide)
    ⟨by decide, by decide⟩ ⟨by decide, by decide⟩

/-- C9: every distribution index-math function checks, in source order and
before any value is computed, exactly its documented preconditions; a violation
makes the debug-build assertion fail (`none`), and under the preconditions
every assertion holds and the function returns its value normally. -/
theorem precondition_checks :
    (∀ e b : Int, tileFromElement_checked e b =
      if 0 ≤ e ∧ 0 < b then some (tileFromElement e b) else none) ∧
    (∀ e b : Int, tileElementFromElement_checked e b =
      if 0 ≤ e ∧ 0 < b then some (tileElementFromElement e b) else none) ∧
    (∀ tile te b : Int, elementFromTileAndTileElement_checked tile te b =
      if 0 ≤ tile ∧ (0 ≤ te ∧ te < b) ∧ 0 < b then
        some (elementFromTileAndTileElement tile te b)
      else none) ∧
    (∀ g t n s : Int, rankGlobalTile_checked g t n s =
      if 0 ≤ g ∧ 0 < t ∧ 0 < n ∧ (0 ≤ s ∧ s < n) then some (rankGlobalTile g t n s)
      else none) ∧
    (∀ g t n rank s : Int, localTileFromGlobalTile_checked g t n rank s =
      if 0 ≤ g ∧ 0 < t ∧ 0 < n ∧ (0 ≤ rank ∧ rank < n) ∧ (0 ≤ s ∧ s < n) then
        some (localTileFromGlobalTile g t n rank s)
      else none) ∧
    (∀ g t n rank s : Int, nextLocalTileFromGlobalTile_checked g t n rank s =
      if 0 ≤ g ∧ 0 < t ∧ 0 < n ∧ (0 ≤ rank ∧ rank < n) ∧ (0 ≤ s ∧ s < n) then
        some (nextLocalTileFromGlobalTile g t n rank s)
      else none) ∧
    (∀ l t n rank s : Int, globalTileFromLocalTile_checked l t n rank s =
      if 0 ≤ l ∧ 0 < t ∧ 0 < n ∧ (0 ≤ rank ∧ rank < n) ∧ (0 ≤ s ∧ s < n) then
        some (globalTileFromLocalTile l t n rank s)
      else none) := by
  refine ⟨?_, ?_, ?_, ?_, ?_, ?_, ?_⟩ <;> intros <;>
    simp only [tileFromElement_checked, tileElementFromElement_checked,
      elementFromTileAndTileElement_checked, rankGlobalTile_checked,
      localTileFromGlobalTile_checked, nextLocalTileFromGlobalTile_checked,
      globalTileFromLocalTile_checked, dlafAssertHeavy] <;>
    split_ifs <;> simp_all

/-- Kinds of argument reaching `MPICallHelper::operator()` (transform_mpi.h), as
distinguished by the `if constexpr` dispatch on the decayed argument type:
`promiseGuardComm` is exactly `PromiseGuard<Communicator>`, `promiseGuardOther`
is a `PromiseGuard<T>` for any other `T` (e.g. a tile access guard),
`plainComm` is a bare `Communicator`, `otherArg` is any other type. -/
inductive MPIArg where
  | promiseGuardComm
  | promiseGuardOther
  | plainComm
  | otherArg
deriving DecidableEq

/-- Embeds `IsPromiseGuardCommunicator_v` (transform_mpi.h): `std::is_same` with
`PromiseGuard<Communicator>`. -/
def IsPromiseGuardCommunicator : MPIArg → Bool
  | MPIArg.promiseGuardComm => true
  | _ => false

/-- Embeds `consumePromiseGuardCommunicator` (transform_mpi.h): the argument is
moved into a local variable that is immediately destroyed (`true` = released)
only when its type is exactly `PromiseGuard<Communicator>`; any other argument
is left untouched. -/
def consumePromiseGuardCommunicator (t : MPIArg) : Bool :=
  IsPromiseGuardCommunicator t

/-- Observable events of one `MPICallHelper::operator()` execution. -/
inductive MPIEvent where
  | invokeCall
  | releaseArg (i : Nat)
  | pollRequest
  | callReturns
deriving DecidableEq

/-- Releases performed right after the wrapped MPI primitive returns: the fold
`(internal::consumePromiseGuardCommunicator(...), ...)` over the arguments. -/
def submitReleases (args : List MPIArg) : List MPIEvent :=
  (List.range args.length).filterMap fun i =>
    if consumePromiseGuardCommunicator (args.getD i MPIArg.otherArg) then
      some (MPIEvent.releaseArg i)
    else none

/-- Releases of the arguments not consumed at submission: they stay alive in the
operation state for the whole call and are destroyed after it returns. -/
def completionReleases (args : List MPIArg) : List MPIEvent :=
  (List.range args.length).filterMap fun i =>
    if consumePromiseGuardCommunicator (args.getD i MPIArg.otherArg) then none
    else some (MPIEvent.releaseArg i)

/-- Event trace of `MPICallHelper::operator()` (transform_mpi.h): the wrapped MPI
primitive is invoked with a fresh `MPI_Request`; `consumePromiseGuardCommunicator`
is then folded over all arguments; `pika::util::yield_while` polls the request
with `MPI_Test` until completion; finally the helper returns and the arguments
still alive are released. -/
def mpiCallHelperTrace (args : List MPIArg) : List MPIEvent :=
  MPIEvent.invokeCall :: submitReleases args ++
    MPIEvent.pollRequest :: MPIEvent.callReturns :: completionReleases args

/-- Every event in `submitReleases` is a release. -/
lemma submitReleases_shape (args : List MPIArg) (e : MPIEvent)
    (he : e ∈ submitReleases args) : ∃ j, e = MPIEvent.releaseArg j := by
  rcases List.mem_filterMap.1 he with ⟨j, hj, hfe⟩
  refine ⟨j, ?_⟩
  by_cases hc : consumePromiseGuardCommunicator (args.getD j MPIArg.otherArg)
  · rw [if_pos hc] at hfe
    exact (Option.some_injective _ hfe).symm
  · rw [if_neg hc] at hfe
    exact absurd hfe (Option.noConfusion)

/-- `submitReleases` has no duplicate events. -/
lemma submitReleases_nodup (args : List MPIArg) : (submitReleases args).Nodup := by
  refine List.Nodup.filterMap ?_ (List.nodup_range args.length)
  intro a b e hea heb
  by_cases hca : consumePromiseGuardCommunicator (args.getD a MPIArg.otherArg)
  · by_cases hcb : consumePromiseGuardCommunicator (args.getD b MPIArg.otherArg)
    · simp only [if_pos hca] at hea
      simp only [if_pos hcb] at heb
      have h1 := Option.some_injective _ hea
      have h2 := Option.some_injective _ heb
      rw [← h1] at h2
      exact MPIEvent.releaseArg.inj h2.symm
    · simp only [if_neg hcb] at heb
      exact absurd heb (Option.noConfusion)
  · simp only [if_pos, if_neg hca] at hea
    exact absurd hea (Option.noConfusion)

/-- Membership in `submitReleases` characterised. -/
lemma mem_submitReleases (args : List MPIArg) (i : Nat) :
    MPIEvent.releaseArg i ∈ submitReleases args ↔
      i < args.length ∧ consumePromiseGuardCommunicator (args.getD i MPIArg.otherArg) = true := by
  constructor
  · intro h
    rcases List.mem_filterMap.1 h with ⟨j, hj, hfe⟩
    by_cases hc : consumePromiseGuardCommunicator (args.getD j MPIArg.otherArg)
    · rw [if_pos hc] at hfe
      have hji : j = i := MPIEvent.releaseArg.inj (Option.some_injective _ hfe)
      subst hji
      exact ⟨List.mem_range.1 hj, hc⟩
    · rw [if_neg hc] at hfe
      exact absurd hfe (Option.noConfusion)
  · intro ⟨hi, hc⟩
    exact List.mem_filterMap.2 ⟨i, List.mem_range.2 hi, by rw [if_pos hc]⟩

/-- Membership in `completionReleases` characterised. -/
lemma mem_completionReleases (args : List MPIArg) (i : Nat) :
    MPIEvent.releaseArg i ∈ completionReleases args ↔
      i < args.length ∧
        consumePromiseGuardCommunicator (args.getD i MPIArg.otherArg) = false := by
  constructor
  · intro h
    rcases List.mem_filterMap.1 h with ⟨j, hj, hfe⟩
    by_cases hc : consumePromiseGuardCommunicator (args.getD j MPIArg.otherArg)
    · rw [if_pos hc] at hfe
      exact absurd hfe (Option.noConfusion)
    · rw [if_neg hc] at hfe
      have hji : j = i := MPIEvent.releaseArg.inj (Option.some_injective _ hfe)
      subst hji
      exact ⟨List.mem_range.1 hj, by simpa using hc⟩
  · intro ⟨hi, hc⟩
    refine List.mem_filterMap.2 ⟨i, List.mem_range.2 hi, ?_⟩
    exact if_neg (fun h => by rw [hc] at h; exact Bool.noConfusion h)

/-- C3: in `MPICallHelper::operator()`, a `PromiseGuard<Communicator>` argument
is released immediately after the wrapped MPI primitive is invoked and strictly
before the request is polled for completion, and it is never released again
later, so it is not held until the MPI operation completes. -/
theorem mpi_comm_guard_released_at_submission (args : List MPIArg) (i : Nat)
    (hi : args.getD i MPIArg.otherArg = MPIArg.promiseGuardComm) :
    ∃ pre post,
      mpiCallHelperTrace args =
        MPIEvent.invokeCall :: (pre ++ MPIEvent.releaseArg i :: post) ∧
      MPIEvent.pollRequest ∉ pre ∧
      MPIEvent.pollRequest ∈ post ∧
      MPIEvent.releaseArg i ∉ post := by
  have hconsume : consumePromiseGuardCommunicator (args.getD i MPIArg.otherArg) = true := by
    rw [hi]
    rfl
  have hlen : i < args.length := by
    by_contra hcon
    push_neg at hcon
    rw [List.getD_eq_default _ _ hcon] at hi
    exact MPIArg.noConfusion hi
  have hmem : MPIEvent.releaseArg i ∈ submitReleases args :=
    (mem_submitReleases args i).2 ⟨hlen, hconsume⟩
  obtain ⟨s1, s2, hsplit⟩ := List.append_of_mem hmem
  refine ⟨s1, s2 ++ MPIEvent.pollRequest :: MPIEvent.callReturns :: completionReleases args,
    ?_, ?_, ?_, ?_⟩
  · rw [mpiCallHelperTrace, hsplit]
    simp
  · intro hpoll
    have hpoll2 : MPIEvent.pollRequest ∈ submitReleases args := by
      rw [hsplit]
      exact List.mem_append_left _ hpoll
    obtain ⟨j, hj⟩ := submitReleases_shape args _ hpoll2
    exact MPIEvent.noConfusion hj
  · simp
  · intro hrel
    rcases List.mem_append.1 hrel with hrel2 | hrel3
    · have hnodup : (submitReleases args).Nodup := submitReleases_nodup args
      rw [hsplit] at hnodup
      have hnotmem := (List.nodup_append.1 hnodup).2.1
      exact (List.nodup_cons.1 hnotmem).1 hrel2
    · rcases hrel3 with _ | ⟨_, hrel4⟩
      rcases hrel4 with _ | ⟨_, hrel5⟩
      have hfalse : consumePromiseGuardCommunicator (args.getD i MPIArg.otherArg) = false :=
        ((mem_completionReleases args i).1 hrel5).2
      rw [hconsume] at hfalse
      exact Bool.noConfusion hfalse

/-- Witness for `mpi_comm_guard_released_at_submission` on the argument list of a
bridged broadcast call: a pipelined communicator guard followed by a tile
guard. -/
theorem mpi_comm_guard_released_at_submission_witness :
    ∃ pre post,
      mpiCallHelperTrace [MPIArg.promiseGuardComm, MPIArg.promiseGuardOther] =
        MPIEvent.invokeCall :: (pre ++ MPIEvent.releaseArg 0 :: post) ∧
      MPIEvent.pollRequest ∉ pre ∧
      MPIEvent.pollRequest ∈ post ∧
      MPIEvent.releaseArg 0 ∉ post :=
  mpi_comm_guard_released_at_submission [MPIArg.promiseGuardComm, MPIArg.promiseGuardOther] 0
    (by rfl)

/-- C10: `consumePromiseGuardCommunicator` destroys its argument only when its
type is exactly `PromiseGuard<Communicator>` and leaves every other argument
kind unchanged; consequently any non-communicator argument of a bridged MPI
call is released only after the call returns from polling, i.e. it stays held
until the MPI request completes. -/
theorem mpi_non_comm_arg_held_until_completion :
    (consumePromiseGuardCommunicator MPIArg.promiseGuardComm = true ∧
      ∀ a : MPIArg, a ≠ MPIArg.promiseGuardComm →
        consumePromiseGuardCommunicator a = false) ∧
    ∀ (args : List MPIArg) (i : Nat), i < args.length →
      args.getD i MPIArg.otherArg ≠ MPIArg.promiseGuardComm →
      ∃ pre post,
        mpiCallHelperTrace args = pre ++ MPIEvent.callReturns :: post ∧
        MPIEvent.pollRequest ∈ pre ∧
        MPIEvent.releaseArg i ∉ pre ∧
        MPIEvent.releaseArg i ∈ post := by
  constructor
  · refine ⟨rfl, ?_⟩
    intro a ha
    cases a
    · exact absurd rfl ha
    · rfl
    · rfl
    · rfl
  · intro args i hlen hne
    have hconsume : consumePromiseGuardCommunicator (args.getD i MPIArg.otherArg) = false := by
      cases harg : args.getD i MPIArg.otherArg
      · exact absurd harg hne
      · rfl
      · rfl
      · rfl
    refine ⟨MPIEvent.invokeCall :: submitReleases args ++ [MPIEvent.pollRequest],
      completionReleases args, ?_, ?_, ?_, ?_⟩
    · rw [mpiCallHelperTrace]
      simp
    · simp
    · intro hrel
      rcases List.mem_cons.1 hrel with hinv | hrest
      · exact MPIEvent.noConfusion hinv
      rcases List.mem_append.1 hrest with hsub | hpoll
      · have htrue : consumePromiseGuardCommunicator (args.getD i MPIArg.otherArg) = true :=
          ((mem_submitReleases args i).1 hsub).2
        rw [hconsume] at htrue
        exact Bool.noConfusion htrue
      · exact MPIEvent.noConfusion (List.mem_singleton.1 hpoll)
    · exact (mem_completionReleases args i).2 ⟨hlen, hconsume⟩

/-- Witness for `mpi_non_comm_arg_held_until_completion`: part two applied to a
communicator guard followed by a tile guard, at the tile-guard index. -/
theorem mpi_non_comm_arg_held_until_completion_witness :
    (1 < ([MPIArg.promiseGuardComm, MPIArg.promiseGuardOther] : List MPIArg).length) ∧
    ∃ pre post,
      mpiCallHelperTrace [MPIArg.promiseGuardComm, MPIArg.promiseGuardOther] =
        pre ++ MPIEvent.callReturns :: post ∧
      MPIEvent.pollRequest ∈ pre ∧
      MPIEvent.releaseArg 1 ∉ pre ∧
      MPIEvent.releaseArg 1 ∈ post :=
  ⟨by decide,
    mpi_non_comm_arg_held_until_completion.2
      [MPIArg.promiseGuardComm, MPIArg.promiseGuardOther] 1 (by decide) (by decide)⟩

/-- Embeds the `CopyToDestination` flag of the `withTemporaryTile` interface as
instantiated in broadcast.cpp. -/
inductive CopyToDestination where
  | Yes
  | No
deriving DecidableEq

/-- Embeds the `CopyFromDestination` flag of the `withTemporaryTile` interface as
instantiated in broadcast.cpp. -/
inductive CopyFromDestination where
  | Yes
  | No
deriving DecidableEq

/-- Observable data movements of one broadcast kernel invocation. -/
inductive StagingEvent where
  | copyInputToStaging
  | commOp
  | copyStagingToInput
deriving DecidableEq

/-- Final contents of the input tile together with the data movements performed. -/
structure TempTileOutcome (α : Type) where
  result : α
  events : List StagingEvent

/-- Modelled from the spec: the helper `withTemporaryTile`
(dlaf/sender/with_temporary_tile.h, whose implementation is not among the
studied sources) stages the operation through a communication-capable scratch
tile when the device of the input tile cannot be addressed by the network layer
(`needs_staging`): the input is copied into the scratch tile only if
`copy_to = Yes`, the communication operation runs on the scratch tile, and the
scratch tile is copied back into the input tile only if `copy_from = Yes`;
without staging the operation runs directly on the input tile. -/
def withTemporaryTile {α : Type} (copy_to : CopyToDestination)
    (copy_from : CopyFromDestination) (needs_staging : Bool) (comm : α → α)
    (input scratch : α) : TempTileOutcome α :=
  if needs_staging then
    { result :=
        match copy_from with
        | CopyFromDestination.Yes =>
            comm (match copy_to with
                  | CopyToDestination.Yes => input
                  | CopyToDestination.No => scratch)
        | CopyFromDestination.No => input
      events :=
        (match copy_to with
         | CopyToDestination.Yes => [StagingEvent.copyInputToStaging]
         | CopyToDestination.No => []) ++
        [StagingEvent.commOp] ++
        (match copy_from with
         | CopyFromDestination.Yes => [StagingEvent.copyStagingToInput]
         | CopyFromDestination.No => []) }
  else
    { result := comm input, events := [StagingEvent.commOp] }

/-- Modelled from the spec: `sendBcast` issues `MPI_Ibcast` at the root rank,
which reads the buffer and leaves it unchanged. -/
def sendBcast {α : Type} (buf : α) : α :=
  buf

/-- Modelled from the spec: `recvBcast` issues `MPI_Ibcast` at a non-root rank,
which overwrites the buffer with the value broadcast by the root. -/
def recvBcast {α : Type} (received : α) (buf : α) : α :=
  received

/-- Embeds `internal::scheduleSendBcast` (broadcast.cpp): the bridged send runs
through `withTemporaryTile<comm_device_type, CopyToDestination::Yes,
CopyFromDestination::No, RequireContiguous::No>`. -/
def scheduleSendBcast {α : Type} (needs_staging : Bool) (tile scratch : α) :
    TempTileOutcome α :=
  withTemporaryTile CopyToDestination.Yes CopyFromDestination.No needs_staging
    sendBcast tile scratch

/-- Embeds `scheduleRecvBcast` (broadcast.cpp): the bridged receive runs through
`withTemporaryTile<comm_device_type, CopyToDestination::No,
CopyFromDestination::Yes, RequireContiguous::No>`. -/
def scheduleRecvBcast {α : Type} (needs_staging : Bool) (received : α)
    (tile scratch : α) : TempTileOutcome α :=
  withTemporaryTile CopyToDestination.No CopyFromDestination.Yes needs_staging
    (recvBcast received) tile scratch

/-- C8: the broadcast send kernel copies the input tile into the staging tile
before issuing the bridged send but never copies data back, leaving the
original input tile unchanged; the broadcast receive kernel never pre-copies
the existing contents of the destination tile into the staging tile, and copies the staging
tile back into the destination tile after the receive when staging was used. -/
theorem broadcast_staging_copies {α : Type} (needs_staging : Bool)
    (tile scratch received : α) :
    (scheduleSendBcast needs_staging tile scratch).result = tile ∧
    StagingEvent.copyStagingToInput ∉
      (scheduleSendBcast needs_staging tile scratch).events ∧
    (needs_staging = true →
      (scheduleSendBcast needs_staging tile scratch).events =
        [StagingEvent.copyInputToStaging, StagingEvent.commOp]) ∧
    StagingEvent.copyInputToStaging ∉
      (scheduleRecvBcast needs_staging received tile scratch).events ∧
    (scheduleRecvBcast needs_staging received tile scratch).result = received ∧
    (needs_staging = true →
      (scheduleRecvBcast needs_staging received tile scratch).events =
        [StagingEvent.commOp, StagingEvent.copyStagingToInput]) := by
  cases needs_staging <;>
    simp [scheduleSendBcast, scheduleRecvBcast, withTemporaryTile, sendBcast, recvBcast]

/-- Witness for `broadcast_staging_copies` on integer-valued tiles with staging
in use. -/
theorem broadcast_staging_copies_witness :
    (scheduleSendBcast true (1 : Int) 0).result = 1 ∧
    StagingEvent.copyStagingToInput ∉ (scheduleSendBcast true (1 : Int) 0).events ∧
    (true = true →
      (scheduleSendBcast true (1 : Int) 0).events =
        [StagingEvent.copyInputToStaging, StagingEvent.commOp]) ∧
    StagingEvent.copyInputToStaging ∉ (scheduleRecvBcast true (2 : Int) 1 0).events ∧
    (scheduleRecvBcast true (2 : Int) 1 0).result = 2 ∧
    (true = true →
      (scheduleRecvBcast true (2 : Int) 1 0).events =
        [StagingEvent.commOp, StagingEvent.copyStagingToInput]) :=
  broadcast_staging_copies true 1 0 2

end dlaf
